import Mathlib

/-!
Verification of the pathext library (src/lib.rs), a set of string and
component predicates over Rust filesystem paths.  The embedding below
models a Unix path as its underlying character sequence together with a
flag recording whether that sequence is valid UTF-8 (whether the Rust
call to_str succeeds).  Path component parsing follows the rules of the
Rust standard library on Unix: a leading separator yields a RootDir
component, a leading dot segment yields a CurDir component, empty and
non-leading dot segments are dropped, a double dot segment is ParentDir,
and every other segment is a Normal component.
-/

namespace Pathext

/-- One component of a Unix path, mirroring std path Component with the
four cases that exist on Unix (there is no Prefix case on Unix). -/
inductive Component where
  | rootDir : Component
  | curDir : Component
  | parentDir : Component
  | normal : String → Component
deriving DecidableEq

/-- Text of a component, mirroring Component.as_os_str in the Rust
standard library. -/
def componentAsStr : Component → String
  | .rootDir => "/"
  | .curDir => "."
  | .parentDir => ".."
  | .normal s => s

/-- Splits a character list at every separator, keeping empty segments,
mirroring how the std components iterator cuts the byte slice at b'/'. -/
def splitOnSlash : List Char → List (List Char)
  | [] => [[]]
  | c :: cs =>
    if c = '/' then [] :: splitOnSlash cs
    else
      match splitOnSlash cs with
      | [] => [[c]]
      | p :: ps => (c :: p) :: ps

/-- True when the first character is the separator, mirroring
Path.has_root on Unix. -/
def hasRoot (cs : List Char) : Bool :=
  match cs with
  | [] => false
  | c :: _ => c == '/'

/-- True when the path begins with a lone dot segment, mirroring
Components.include_cur_dir (a dot followed by a separator or the end;
a rooted path never begins with a dot so the root check is implied). -/
def includeCurDir (cs : List Char) : Bool :=
  match cs with
  | [c] => c == '.'
  | c :: c2 :: _ => c == '.' && c2 == '/'
  | [] => false

/-- Classifies one raw segment, mirroring parse_single_component in the
std components iterator: dot and empty segments are dropped, a double
dot is ParentDir, anything else is a Normal component. -/
def parseSingleComponent (piece : List Char) : Option Component :=
  if piece = ['.'] then none
  else if piece = ['.', '.'] then some Component.parentDir
  else if piece = [] then none
  else some (Component.normal (String.mk piece))

/-- Full component sequence of a path string, mirroring
Path.components() collected into a list on Unix. -/
def pathComponents (r : String) : List Component :=
  (if hasRoot r.data then [Component.rootDir] else [])
    ++ (if includeCurDir r.data then [Component.curDir] else [])
    ++ (splitOnSlash r.data).filterMap parseSingleComponent

/-- Model of a borrowed Rust path: the character content of its OsStr
plus whether that content is valid UTF-8, which decides whether to_str
produces a textual form. -/
structure RustPath where
  osstr : String
  valid : Bool
deriving DecidableEq

/-- Mirrors Path.to_str: the textual form when the OsStr is valid UTF-8,
absent otherwise. -/
def to_str (p : RustPath) : Option String :=
  if p.valid then some p.osstr else none

/-- Boolean prefix test on character lists, mirroring str.starts_with on
the underlying characters. -/
def isPrefixB : List Char → List Char → Bool
  | [], _ => true
  | _ :: _, [] => false
  | a :: as, b :: bs => a == b && isPrefixB as bs

/-- Boolean suffix test on character lists, mirroring str.ends_with. -/
def isSuffixB (pat s : List Char) : Bool :=
  isPrefixB pat.reverse s.reverse

/-- Boolean substring test on character lists, mirroring str.contains
with a plain string pattern. -/
def isInfixB (pat : List Char) : List Char → Bool
  | [] => isPrefixB pat []
  | b :: bs => isPrefixB pat (b :: bs) || isInfixB pat bs

/-- Embeds str.contains. -/
def strContains (s pattern : String) : Bool := isInfixB pattern.data s.data

/-- Embeds str.starts_with. -/
def strStartsWith (s pattern : String) : Bool := isPrefixB pattern.data s.data

/-- Embeds str.ends_with. -/
def strEndsWith (s pattern : String) : Bool := isSuffixB pattern.data s.data

/-- PathExt.contains from src/lib.rs: substring test on the textual
form, false when no textual form exists. -/
def contains (p : RustPath) (pattern : String) : Bool :=
  match to_str p with
  | some s => strContains s pattern
  | none => false

/-- PathExt.has_component from src/lib.rs: some parsed component has
exactly the supplied text. -/
def has_component (p : RustPath) (component : String) : Bool :=
  (pathComponents p.osstr).any (fun c => componentAsStr c == component)

/-- PathExt.starts_or_ends_with from src/lib.rs: textual prefix or
suffix test, false when no textual form exists. -/
def starts_or_ends_with (p : RustPath) (pattern : String) : Bool :=
  match to_str p with
  | some s => strStartsWith s pattern || strEndsWith s pattern
  | none => false

/-- PathExt.ends_with_extensions from src/lib.rs: textual suffix test,
false when no textual form exists. -/
def ends_with_extensions (p : RustPath) (pattern : String) : Bool :=
  match to_str p with
  | some s => strEndsWith s pattern
  | none => false

/-- Embeds str.split_once with a dot pattern: the parts strictly before
and strictly after the first dot, or nothing when no dot occurs. -/
def splitOnceDot : List Char → Option (List Char × List Char)
  | [] => none
  | c :: cs =>
    if c = '.' then some ([], cs)
    else
      match splitOnceDot cs with
      | some (a, b) => some (c :: a, b)
      | none => none

/-- PathExt.strip_extensions from src/lib.rs: the part of the textual
form before the first dot (the whole form when no dot occurs), absent
when no textual form exists. -/
def strip_extensions (p : RustPath) : Option String :=
  match to_str p with
  | some path =>
    match splitOnceDot path.data with
    | some (base, _) => some (String.mk base)
    | none => some path
  | none => none

/-- Characters of a rootless component list joined by separators,
mirroring how the std components iterator renders its remaining
components as a path. -/
def tailToChars : List Component → List Char
  | [] => []
  | [c] => (componentAsStr c).data
  | c :: rest => (componentAsStr c).data ++ '/' :: tailToChars rest

/-- Renders a component list back to a path string, with a leading
separator exactly when the list begins with RootDir. -/
def componentsToPath (cs : List Component) : String :=
  match cs with
  | Component.rootDir :: rest => String.mk ('/' :: tailToChars rest)
  | _ => String.mk (tailToChars cs)

/-- Model of std Path.strip_prefix via iter_after: succeeds exactly when
the component sequence of the base is a leading run of the component
sequence of the path, returning the path formed by the remaining
components. -/
def stripPrefixCore (p : RustPath) (pre : String) : Option RustPath :=
  if pathComponents pre <+: pathComponents p.osstr then
    some ⟨componentsToPath ((pathComponents p.osstr).drop (pathComponents pre).length), p.valid⟩
  else
    none

/-- PathExt.strip_prefix_if_needed from src/lib.rs: the stripped path on
a structural match, the original path otherwise. -/
def strip_prefix_if_needed (p : RustPath) (pre : String) : RustPath :=
  match stripPrefixCore p pre with
  | some stripped => stripped
  | none => p

/-- The path used by the starts_or_ends_with and contains scenarios. -/
def optSomehowPath : RustPath := ⟨"/opt/somewhere/someplace/somehow/", true⟩

/-- The path used by the strip_prefix_if_needed scenario. -/
def usrLocalPath : RustPath := ⟨"/usr/local/aardvark", true⟩

/-- The path used by the ends_with_extensions scenario. -/
def archivePath : RustPath := ⟨"archive.tar.gz", true⟩

/-- The path used by the component scenario. -/
def slashABC : RustPath := ⟨"/a/b/c", true⟩

/-- Rebuilding a string from its characters is the identity. -/
theorem mk_data (s : String) : String.mk s.data = s := rfl

/-- The boolean prefix test agrees with the list prefix relation. -/
theorem isPrefixB_iff : ∀ (a b : List Char), isPrefixB a b = true ↔ a <+: b
  | [], b => by simp [isPrefixB]
  | _ :: _, [] => by simp [isPrefixB]
  | a :: as, b :: bs => by
    simp [isPrefixB, isPrefixB_iff as bs, List.cons_prefix_cons]

/-- The boolean suffix test agrees with the list suffix relation. -/
theorem isSuffixB_iff (a b : List Char) : isSuffixB a b = true ↔ a <:+ b := by
  unfold isSuffixB
  rw [isPrefixB_iff, List.reverse_prefix]

/-- The boolean substring test agrees with the list infix relation. -/
theorem isInfixB_iff : ∀ (b a : List Char), isInfixB a b = true ↔ a <:+: b
  | [], a => by
    simp [isInfixB, isPrefixB_iff]
  | b :: bs, a => by
    simp [isInfixB, isPrefixB_iff, isInfixB_iff bs a, List.infix_cons_iff]

/-- Characterization of the embedded split_once at the first dot. -/
theorem splitOnceDot_eq (l : List Char) :
    splitOnceDot l =
      if '.' ∈ l then
        some (l.takeWhile (fun c => c != '.'), (l.dropWhile (fun c => c != '.')).tail)
      else none := by
  induction l with
  | nil => simp [splitOnceDot]
  | cons c cs ih =>
    by_cases hc : c = '.'
    · subst hc
      simp [splitOnceDot]
    · by_cases hm : '.' ∈ cs
      · simp [splitOnceDot, hc, ih, hm, List.takeWhile_cons, List.dropWhile_cons, bne_iff_ne]
      · simp [splitOnceDot, hc, ih, hm, Ne.symm hc]

/-- On a path with a textual form, strip_extensions keeps exactly the
characters before the first dot. -/
theorem strip_extensions_valid_eq (r : String) :
    strip_extensions ⟨r, true⟩ =
      some (String.mk (r.data.takeWhile (fun c => c != '.'))) := by
  have hred : strip_extensions ⟨r, true⟩ =
      match splitOnceDot r.data with
      | some (base, _) => some (String.mk base)
      | none => some r := rfl
  rw [hred, splitOnceDot_eq]
  by_cases h : '.' ∈ r.data
  · simp [h]
  · rw [if_neg h]
    show some r = _
    have : r.data.takeWhile (fun c => c != '.') = r.data := by
      rw [List.takeWhile_eq_self_iff]
      intro a ha
      simp only [bne_iff_ne, ne_eq]
      intro hEq
      exact h (hEq ▸ ha)
    rw [this, mk_data]

/-- A dot-free prefix of a list is at most as long as the leading run of
non-dot characters of that list. -/
theorem dotfree_le_takeWhile : ∀ (u l : List Char), u <+: l → '.' ∉ u →
    u.length ≤ (l.takeWhile (fun c => c != '.')).length
  | [], _, _, _ => by simp
  | a :: u, l, h, hd => by
    obtain ⟨t, ht⟩ := h
    subst ht
    have ha : (a != '.') = true := by
      rw [bne_iff_ne]
      intro hEq
      exact hd (by simp [hEq])
    have hd2 : '.' ∉ u := fun hm => hd (List.mem_cons_of_mem _ hm)
    have ih := dotfree_le_takeWhile u (u ++ t) ⟨t, rfl⟩ hd2
    simpa [List.takeWhile_cons, ha] using Nat.succ_le_succ ih

/-- Characters of a built string are the given characters. -/
theorem data_mk (l : List Char) : (String.mk l).data = l := rfl

/-- Splitting never yields an empty segment list. -/
theorem splitOnSlash_ne_nil (l : List Char) : splitOnSlash l ≠ [] := by
  cases l with
  | nil => simp [splitOnSlash]
  | cons c cs =>
    simp only [splitOnSlash]
    by_cases h : c = '/'
    · simp [h]
    · simp only [h, if_false]
      cases hs : splitOnSlash cs with
      | nil => simp
      | cons p ps => simp

/-- Splitting a slash-free list yields that single segment. -/
theorem splitOnSlash_no_slash : ∀ (l : List Char), '/' ∉ l → splitOnSlash l = [l]
  | [], _ => rfl
  | c :: cs, h => by
    have hc : ¬ c = '/' := fun e => h (by simp [e])
    have hcs : '/' ∉ cs := fun m => h (List.mem_cons_of_mem _ m)
    simp only [splitOnSlash, hc, if_false]
    simp [splitOnSlash_no_slash cs hcs]

/-- Splitting after a slash-free block peels off that block. -/
theorem splitOnSlash_append_slash : ∀ (a b : List Char), '/' ∉ a →
    splitOnSlash (a ++ '/' :: b) = a :: splitOnSlash b
  | [], b, _ => by simp [splitOnSlash]
  | c :: a, b, h => by
    have hc : ¬ c = '/' := fun e => h (by simp [e])
    have ha : '/' ∉ a := fun m => h (List.mem_cons_of_mem _ m)
    simp only [List.cons_append, splitOnSlash, hc, if_false]
    simp [splitOnSlash_append_slash a b ha]

/-- Every segment produced by splitting is slash-free. -/
theorem no_slash_of_mem_splitOnSlash : ∀ (l piece : List Char),
    piece ∈ splitOnSlash l → '/' ∉ piece
  | [], piece, h => by
    simp [splitOnSlash] at h
    simp [h]
  | c :: cs, piece, h => by
    by_cases hc : c = '/'
    · simp only [splitOnSlash, hc, if_true] at h
      rcases List.mem_cons.mp h with rfl | h2
      · simp
      · exact no_slash_of_mem_splitOnSlash cs piece h2
    · simp only [splitOnSlash, hc, if_false] at h
      cases hs : splitOnSlash cs with
      | nil => exact absurd hs (splitOnSlash_ne_nil cs)
      | cons p ps =>
        simp only [hs] at h
        rcases List.mem_cons.mp h with rfl | h2
        · intro hm
          rcases List.mem_cons.mp hm with rfl | hm2
          · exact hc rfl
          · exact no_slash_of_mem_splitOnSlash cs p (by simp [hs]) hm2
        · exact no_slash_of_mem_splitOnSlash cs piece (by simp [hs, h2])

/-- Components that can appear in the segment part of a parsed path:
ParentDir, or a Normal component whose text is nonempty, slash-free and
distinct from the dot segments. -/
def GoodPiece (c : Component) : Prop :=
  match c with
  | Component.parentDir => True
  | Component.normal s => s.data ≠ [] ∧ s.data ≠ ['.'] ∧ s.data ≠ ['.', '.'] ∧ '/' ∉ s.data
  | _ => False

/-- Parsing a slash-free segment yields a good piece. -/
theorem parseSingleComponent_good (piece : List Char) (comp : Component)
    (h : parseSingleComponent piece = some comp) (hs : '/' ∉ piece) : GoodPiece comp := by
  rw [parseSingleComponent] at h
  by_cases h1 : piece = ['.']
  · rw [if_pos h1] at h
    exact Option.noConfusion h
  · rw [if_neg h1] at h
    by_cases h2 : piece = ['.', '.']
    · rw [if_pos h2] at h
      obtain rfl : Component.parentDir = comp := Option.some_inj.mp h
      exact trivial
    · rw [if_neg h2] at h
      by_cases h3 : piece = []
      · rw [if_pos h3] at h
        exact Option.noConfusion h
      · rw [if_neg h3] at h
        obtain rfl : Component.normal (String.mk piece) = comp := Option.some_inj.mp h
        exact ⟨h3, h1, h2, hs⟩

/-- A good piece parses back to itself from its own text. -/
theorem parseSingleComponent_of_good (comp : Component) (h : GoodPiece comp) :
    parseSingleComponent (componentAsStr comp).data = some comp := by
  cases comp with
  | rootDir => exact h.elim
  | curDir => exact h.elim
  | parentDir => rfl
  | normal s =>
    obtain ⟨h1, h2, h3, _⟩ := h
    have hca : componentAsStr (Component.normal s) = s := rfl
    rw [parseSingleComponent, hca]
    rw [if_neg h2, if_neg h3, if_neg h1, mk_data]

/-- The text of a good piece is nonempty, slash-free and not a lone
dot. -/
theorem goodPiece_chars (c : Component) (h : GoodPiece c) :
    (componentAsStr c).data ≠ [] ∧ '/' ∉ (componentAsStr c).data
      ∧ (componentAsStr c).data ≠ ['.'] := by
  cases c with
  | rootDir => exact h.elim
  | curDir => exact h.elim
  | parentDir => exact ⟨by decide, by decide, by decide⟩
  | normal s => exact ⟨h.1, h.2.2.2, h.2.1⟩

/-- Every parsed segment of a path is a good piece. -/
theorem pieces_good (l : List Char) :
    ∀ comp ∈ (splitOnSlash l).filterMap parseSingleComponent, GoodPiece comp := by
  intro comp hc
  obtain ⟨piece, hp, hparse⟩ := List.mem_filterMap.mp hc
  exact parseSingleComponent_good piece comp hparse (no_slash_of_mem_splitOnSlash l piece hp)

/-- The rendering of a nonempty component list onto a tail. -/
theorem tailToChars_cons (c : Component) (rest : List Component) (hne : rest ≠ []) :
    tailToChars (c :: rest) = (componentAsStr c).data ++ '/' :: tailToChars rest := by
  cases rest with
  | nil => exact absurd rfl hne
  | cons d ds => rfl

/-- A character block that is nonempty, slash-free and not a lone dot
never makes the front of a path look rooted or dotted. -/
theorem flags_of_chars (A R : List Char) (hne : A ≠ []) (hslash : '/' ∉ A) (hdot : A ≠ ['.']) :
    hasRoot (A ++ R) = false ∧ includeCurDir (A ++ R) = false := by
  cases A with
  | nil => exact absurd rfl hne
  | cons x xs =>
    have hx : x ≠ '/' := fun e => hslash (by simp [e])
    refine ⟨by simp [hasRoot, hx], ?_⟩
    cases xs with
    | nil =>
      have hx2 : x ≠ '.' := fun e => hdot (by simp [e])
      cases R with
      | nil => simp [includeCurDir, hx2]
      | cons r2 rs => simp [includeCurDir, hx2]
    | cons y ys =>
      have hy : y ≠ '/' := fun e => hslash (by simp [e])
      simp [includeCurDir, hy]

/-- A rendered list of good pieces has neither the root flag nor the
leading dot flag. -/
theorem flags_tailToChars (cs : List Component) (h : ∀ c ∈ cs, GoodPiece c) :
    hasRoot (tailToChars cs) = false ∧ includeCurDir (tailToChars cs) = false := by
  cases cs with
  | nil => exact ⟨rfl, rfl⟩
  | cons c rest =>
    obtain ⟨hne, hslash, hdot⟩ := goodPiece_chars c (h c (by simp))
    cases rest with
    | nil =>
      have hshape : tailToChars [c] = (componentAsStr c).data ++ [] := by
        simp [tailToChars]
      rw [hshape]
      exact flags_of_chars _ _ hne hslash hdot
    | cons d ds =>
      rw [tailToChars_cons c (d :: ds) (by simp)]
      exact flags_of_chars _ _ hne hslash hdot

/-- Splitting the rendering of good pieces recovers exactly those
pieces. -/
theorem filterMap_splitOnSlash_tailToChars :
    ∀ (cs : List Component), (∀ c ∈ cs, GoodPiece c) →
      (splitOnSlash (tailToChars cs)).filterMap parseSingleComponent = cs
  | [], _ => by decide
  | [c], h => by
    have hg := h c (by simp)
    have hshape : tailToChars [c] = (componentAsStr c).data := rfl
    rw [hshape, splitOnSlash_no_slash _ (goodPiece_chars c hg).2.1]
    simp [List.filterMap_cons, parseSingleComponent_of_good c hg]
  | c :: d :: ds, h => by
    have hg := h c (by simp)
    have hrest : ∀ x ∈ d :: ds, GoodPiece x := fun x hx => h x (List.mem_cons_of_mem _ hx)
    rw [tailToChars_cons c (d :: ds) (by simp)]
    rw [splitOnSlash_append_slash _ _ (goodPiece_chars c hg).2.1]
    simp [List.filterMap_cons, parseSingleComponent_of_good c hg,
      filterMap_splitOnSlash_tailToChars (d :: ds) hrest]

/-- Parsing the rendering of a list of good pieces is the identity. -/
theorem pathComponents_mk_tail (cs : List Component) (h : ∀ c ∈ cs, GoodPiece c) :
    pathComponents (String.mk (tailToChars cs)) = cs := by
  obtain ⟨h1, h2⟩ := flags_tailToChars cs h
  rw [pathComponents, data_mk]
  simp only [h1, h2, Bool.false_eq_true, if_false, List.nil_append]
  exact filterMap_splitOnSlash_tailToChars cs h

/-- Component lists that can arise as a tail of a parsed component
sequence: an optional leading RootDir or CurDir followed by good
pieces. -/
def GoodTail (cs : List Component) : Prop :=
  match cs with
  | Component.rootDir :: rest => ∀ c ∈ rest, GoodPiece c
  | Component.curDir :: rest => ∀ c ∈ rest, GoodPiece c
  | _ => ∀ c ∈ cs, GoodPiece c

/-- A list of good pieces is a good tail. -/
theorem goodTail_of_all (cs : List Component) (h : ∀ c ∈ cs, GoodPiece c) : GoodTail cs := by
  cases cs with
  | nil => exact h
  | cons c rest =>
    cases c with
    | rootDir => exact fun x hx => h x (List.mem_cons_of_mem _ hx)
    | curDir => exact fun x hx => h x (List.mem_cons_of_mem _ hx)
    | parentDir => exact h
    | normal s => exact h

/-- A rooted character list never carries the leading dot flag. -/
theorem hasRoot_includeCurDir (cs : List Char) :
    hasRoot cs = true → includeCurDir cs = false := by
  cases cs with
  | nil => simp [hasRoot]
  | cons c cs2 =>
    intro h
    have hc : c = '/' := by simpa [hasRoot] using h
    subst hc
    cases cs2 with
    | nil => rfl
    | cons d ds => simp [includeCurDir]

/-- Parsing the rendering of a good tail is the identity. -/
theorem roundtrip_goodTail (cs : List Component) (h : GoodTail cs) :
    pathComponents (componentsToPath cs) = cs := by
  cases cs with
  | nil => rfl
  | cons c rest =>
    cases c with
    | rootDir =>
      show pathComponents (String.mk ('/' :: tailToChars rest)) = _
      rw [pathComponents, data_mk]
      have hr : hasRoot ('/' :: tailToChars rest) = true := rfl
      have hc : includeCurDir ('/' :: tailToChars rest) = false :=
        hasRoot_includeCurDir _ hr
      have hsplit : splitOnSlash ('/' :: tailToChars rest)
          = [] :: splitOnSlash (tailToChars rest) := by
        simp [splitOnSlash]
      simp only [hr, if_true, hc, Bool.false_eq_true, if_false, hsplit,
        List.filterMap_cons, List.nil_append]
      have hnone : parseSingleComponent [] = none := rfl
      rw [hnone]
      rw [filterMap_splitOnSlash_tailToChars rest h]
      rfl
    | curDir =>
      cases rest with
      | nil => decide
      | cons d ds =>
        show pathComponents (String.mk (tailToChars (Component.curDir :: d :: ds))) = _
        rw [tailToChars_cons _ (d :: ds) (by simp)]
        rw [pathComponents, data_mk]
        have hshape : (componentAsStr Component.curDir).data ++ '/' :: tailToChars (d :: ds)
            = '.' :: '/' :: tailToChars (d :: ds) := rfl
        rw [hshape]
        have hr : hasRoot ('.' :: '/' :: tailToChars (d :: ds)) = false := rfl
        have hc : includeCurDir ('.' :: '/' :: tailToChars (d :: ds)) = true := rfl
        have hsplit : splitOnSlash ('.' :: '/' :: tailToChars (d :: ds))
            = ['.'] :: splitOnSlash (tailToChars (d :: ds)) := by
          simp [splitOnSlash]
        simp only [hr, Bool.false_eq_true, if_false, hc, if_true, hsplit,
          List.filterMap_cons, List.nil_append]
        have hnone : parseSingleComponent ['.'] = none := rfl
        rw [hnone]
        rw [filterMap_splitOnSlash_tailToChars (d :: ds) h]
        rfl
    | parentDir =>
      show pathComponents (String.mk (tailToChars (Component.parentDir :: rest))) = _
      exact pathComponents_mk_tail _ h
    | normal s =>
      show pathComponents (String.mk (tailToChars (Component.normal s :: rest))) = _
      exact pathComponents_mk_tail _ h

/-- Dropping any leading run of a parsed component sequence leaves a
good tail. -/
theorem goodTail_drop (r : String) (n : Nat) : GoodTail ((pathComponents r).drop n) := by
  rw [pathComponents]
  have hp := pieces_good r.data
  by_cases h1 : hasRoot r.data = true
  · have h2 : includeCurDir r.data = false := hasRoot_includeCurDir _ h1
    simp only [h1, if_true, h2, Bool.false_eq_true, if_false, List.nil_append,
      List.singleton_append]
    cases n with
    | zero =>
      simp only [List.drop_zero]
      exact fun c hc => hp c hc
    | succ m =>
      simp only [List.drop_succ_cons]
      exact goodTail_of_all _ (fun c hc => hp c (List.drop_subset _ _ hc))
  · simp only [Bool.not_eq_true] at h1
    simp only [h1, Bool.false_eq_true, if_false, List.nil_append]
    by_cases h2 : includeCurDir r.data = true
    · simp only [h2, if_true, List.singleton_append]
      cases n with
      | zero =>
        simp only [List.drop_zero]
        exact fun c hc => hp c hc
      | succ m =>
        simp only [List.drop_succ_cons]
        exact goodTail_of_all _ (fun c hc => hp c (List.drop_subset _ _ hc))
    · simp only [Bool.not_eq_true] at h2
      simp only [h2, Bool.false_eq_true, if_false, List.nil_append]
      exact goodTail_of_all _ (fun c hc => hp c (List.drop_subset _ _ hc))

/-- Rendering and reparsing any tail of a parsed component sequence is
the identity. -/
theorem roundtrip_drop (r : String) (n : Nat) :
    pathComponents (componentsToPath ((pathComponents r).drop n)) = (pathComponents r).drop n :=
  roundtrip_goodTail _ (goodTail_drop r n)

/-- C1: for the path with textual form /opt/somewhere/someplace/somehow/
the claim asserts starts_or_ends_with is false on the pattern somehow/,
but the textual form literally ends with somehow/ and the code returns
true. -/
theorem starts_or_ends_with_somehow_slash_true :
    starts_or_ends_with optSomehowPath "somehow/" = true := by decide

/-- C1 (amended): starts_or_ends_with is true exactly when the textual
form starts or ends with the pattern, and false when no textual form
exists; on /opt/somewhere/someplace/somehow/ the pattern /opt gives
true, somehow/ gives true (it is a literal tail), someplace/somehow/
gives true, and opt gives false. -/
theorem starts_or_ends_with_correct :
    (∀ (p : RustPath) (pat : String),
      starts_or_ends_with p pat = true ↔
        ∃ s, to_str p = some s ∧ (pat.data <+: s.data ∨ pat.data <:+ s.data))
    ∧ starts_or_ends_with optSomehowPath "/opt" = true
    ∧ starts_or_ends_with optSomehowPath "somehow/" = true
    ∧ starts_or_ends_with optSomehowPath "someplace/somehow/" = true
    ∧ starts_or_ends_with optSomehowPath "opt" = false
    ∧ (∀ (r pat : String), starts_or_ends_with ⟨r, false⟩ pat = false) := by
  refine ⟨?_, by decide, by decide, by decide, by decide, ?_⟩
  · intro p pat
    obtain ⟨r, v⟩ := p
    cases v
    · simp [starts_or_ends_with, to_str]
    · simp [starts_or_ends_with, to_str, strStartsWith, strEndsWith,
        isPrefixB_iff, isSuffixB_iff]
  · intro r pat
    simp [starts_or_ends_with, to_str]

/-- C2: strip_extensions keeps exactly the part of the textual form
strictly before the first dot anywhere in it, returns the whole textual
form when no dot occurs, and on the concrete forms .stuff,
something.tar.gz and lastdot. returns the empty string, something and
lastdot respectively. -/
theorem strip_extensions_first_dot :
    (∀ (r : String), strip_extensions ⟨r, true⟩ =
        some (String.mk (r.data.takeWhile (fun c => c != '.'))))
    ∧ (∀ (r : String), '.' ∉ r.data → strip_extensions ⟨r, true⟩ = some r)
    ∧ strip_extensions ⟨".stuff", true⟩ = some ""
    ∧ strip_extensions ⟨"something.tar.gz", true⟩ = some "something"
    ∧ strip_extensions ⟨"lastdot.", true⟩ = some "lastdot" := by
  refine ⟨strip_extensions_valid_eq, ?_, by decide, by decide, by decide⟩
  intro r h
  rw [strip_extensions_valid_eq r]
  have : r.data.takeWhile (fun c => c != '.') = r.data := by
    rw [List.takeWhile_eq_self_iff]
    intro a ha
    rw [bne_iff_ne]
    intro hEq
    exact h (hEq ▸ ha)
  rw [this, mk_data]

/-- C2 witness: a textual form with no dot is returned whole. -/
theorem strip_extensions_first_dot_witness :
    strip_extensions ⟨"abc", true⟩ = some "abc" :=
  strip_extensions_first_dot.2.1 "abc" (by decide)

/-- C3: ends_with_extensions is true exactly when the textual form ends
with the pattern as a literal character suffix, and on archive.tar.gz
the patterns .tar.gz, tar.gz, .gz and z are all accepted. -/
theorem ends_with_extensions_suffix :
    (∀ (r pat : String),
      ends_with_extensions ⟨r, true⟩ pat = true ↔ pat.data <:+ r.data)
    ∧ ends_with_extensions archivePath ".tar.gz" = true
    ∧ ends_with_extensions archivePath "tar.gz" = true
    ∧ ends_with_extensions archivePath ".gz" = true
    ∧ ends_with_extensions archivePath "z" = true := by
  refine ⟨?_, by decide, by decide, by decide, by decide⟩
  intro r pat
  simp [ends_with_extensions, to_str, strEndsWith, isSuffixB_iff]

/-- C4: contains is true exactly when the pattern is a contiguous
substring of the textual form, is false when no textual form exists, and
with the empty pattern it is true exactly when a textual form exists. -/
theorem contains_substring_iff :
    (∀ (p : RustPath) (pat : String),
      contains p pat = true ↔ ∃ s, to_str p = some s ∧ pat.data <:+: s.data)
    ∧ (∀ (r pat : String), contains ⟨r, false⟩ pat = false)
    ∧ (∀ (p : RustPath), contains p "" = true ↔ (to_str p).isSome = true) := by
  have hmain : ∀ (p : RustPath) (pat : String),
      contains p pat = true ↔ ∃ s, to_str p = some s ∧ pat.data <:+: s.data := by
    intro p pat
    obtain ⟨r, v⟩ := p
    cases v
    · simp [contains, to_str]
    · simp [contains, to_str, strContains, isInfixB_iff]
  refine ⟨hmain, ?_, ?_⟩
  · intro r pat
    simp [contains, to_str]
  · intro p
    rw [hmain p ""]
    obtain ⟨r, v⟩ := p
    cases v
    · simp [to_str]
    · simp [to_str]

/-- C5: the claim asserts that has_component on /a/b/c accepts exactly
the strings a, b and c, but the std component sequence of an absolute
path also holds a RootDir component whose text is the separator, so the
code also accepts the string consisting of one separator. -/
theorem has_component_root_counterexample :
    ¬ (has_component slashABC "/" = true ↔ ("/" = "a" ∨ "/" = "b" ∨ "/" = "c")) := by
  decide

/-- C5 (amended): the component sequence of /a/b/c is RootDir, a, b, c,
so has_component on /a/b/c accepts exactly the separator string, a, b
and c. -/
theorem has_component_slash_abc (X : String) :
    has_component slashABC X = true ↔ (X = "/" ∨ X = "a" ∨ X = "b" ∨ X = "c") := by
  have h : pathComponents "/a/b/c" =
      [Component.rootDir, Component.normal "a", Component.normal "b", Component.normal "c"] := by
    rfl
  show (pathComponents "/a/b/c").any (fun c => componentAsStr c == X) = true ↔ _
  rw [h]
  simp [componentAsStr, List.any_cons, List.any_nil]
  tauto

/-- C6: on /opt/somewhere/someplace/somehow/ the multi-segment string
/someplace/somehow is textually contained but is not a single component,
so contains accepts it while has_component rejects it. -/
theorem contains_not_has_component_example :
    contains optSomehowPath "/someplace/somehow" = true
      ∧ has_component optSomehowPath "/someplace/somehow" = false := by
  decide

/-- C8: every operation is a total function of the embedding; when the
path has no textual form, contains, starts_or_ends_with and
ends_with_extensions are false and strip_extensions is absent rather
than the empty string, while has_component and strip_prefix_if_needed
ignore text-encodability entirely. -/
theorem total_on_invalid_paths :
    (∀ (r pat : String),
      contains ⟨r, false⟩ pat = false
        ∧ starts_or_ends_with ⟨r, false⟩ pat = false
        ∧ ends_with_extensions ⟨r, false⟩ pat = false
        ∧ strip_extensions ⟨r, false⟩ = none
        ∧ strip_extensions ⟨r, false⟩ ≠ some "")
    ∧ (∀ (r c : String) (v v' : Bool), has_component ⟨r, v⟩ c = has_component ⟨r, v'⟩ c)
    ∧ (∀ (r pre : String) (v v' : Bool),
        (strip_prefix_if_needed ⟨r, v⟩ pre).osstr = (strip_prefix_if_needed ⟨r, v'⟩ pre).osstr) := by
  refine ⟨?_, ?_, ?_⟩
  · intro r pat
    refine ⟨rfl, rfl, rfl, rfl, ?_⟩
    intro h
    simp [strip_extensions, to_str] at h
  · intro r c v v'
    rfl
  · intro r pre v v'
    simp only [strip_prefix_if_needed, stripPrefixCore]
    by_cases h : pathComponents pre <+: pathComponents r
    · simp [h]
    · simp [h]

/-- C9: a textual suffix match implies a prefix-or-suffix match, which
in turn implies a substring match. -/
theorem affix_implication_chain :
    ∀ (p : RustPath) (pat : String),
      (ends_with_extensions p pat = true → starts_or_ends_with p pat = true)
      ∧ (starts_or_ends_with p pat = true → contains p pat = true) := by
  intro p pat
  obtain ⟨r, v⟩ := p
  cases v
  · simp [ends_with_extensions, starts_or_ends_with, contains, to_str]
  · constructor
    · intro h
      simp only [ends_with_extensions, to_str, if_true] at h
      simp only [starts_or_ends_with, to_str, if_true, Bool.or_eq_true]
      exact Or.inr h
    · intro h
      simp only [starts_or_ends_with, to_str, if_true, Bool.or_eq_true,
        strStartsWith, strEndsWith] at h
      simp only [contains, to_str, if_true, strContains]
      rw [isInfixB_iff]
      rcases h with h | h
      · have hp := (isPrefixB_iff _ _).mp h
        exact List.IsPrefix.isInfix hp
      · have hs := (isSuffixB_iff _ _).mp h
        exact List.IsSuffix.isInfix hs

/-- C9 witness: on archive.tar.gz with pattern .gz both implications
fire at a concrete input. -/
theorem affix_implication_chain_witness :
    starts_or_ends_with archivePath ".gz" = true
      ∧ contains archivePath ".gz" = true :=
  ⟨(affix_implication_chain archivePath ".gz").1 (by decide),
    (affix_implication_chain archivePath ".gz").2 (by decide)⟩

/-- C10: whenever strip_extensions produces a string, that string is a
dot-free prefix of the textual form and no longer dot-free prefix
exists, so it is exactly the maximal dot-free leading prefix. -/
theorem strip_extensions_maximal_dotfree :
    ∀ (p : RustPath) (s : String), strip_extensions p = some s →
      ∃ t, to_str p = some t ∧ s.data <+: t.data ∧ '.' ∉ s.data
        ∧ ∀ (u : List Char), u <+: t.data → '.' ∉ u → u.length ≤ s.data.length := by
  intro p s h
  obtain ⟨r, v⟩ := p
  cases v
  · simp [strip_extensions, to_str] at h
  · rw [strip_extensions_valid_eq r] at h
    refine ⟨r, rfl, ?_, ?_, ?_⟩
    · rw [← Option.some_inj.mp h]
      exact List.takeWhile_prefix _
    · rw [← Option.some_inj.mp h]
      intro hm
      have := List.mem_takeWhile_imp hm
      simp [bne_iff_ne] at this
    · intro u hu hd
      rw [← Option.some_inj.mp h]
      exact dotfree_le_takeWhile u r.data hu hd

/-- C10 witness: on the textual form a.b the returned string a is the
maximal dot-free leading prefix. -/
theorem strip_extensions_maximal_dotfree_witness :
    ∃ t, to_str ⟨"a.b", true⟩ = some t ∧ ("a" : String).data <+: t.data
      ∧ '.' ∉ ("a" : String).data
      ∧ ∀ (u : List Char), u <+: t.data → '.' ∉ u → u.length ≤ ("a" : String).data.length :=
  strip_extensions_maximal_dotfree ⟨"a.b", true⟩ "a" (by decide)

/-- C7: strip_prefix_if_needed never fails; when the component sequence
of the argument is a structural leading run of the component sequence of
the path it returns the remaining sub-path (the matched leading run
followed by the components of the result is the original component
sequence), and otherwise it returns the path unchanged; concretely
/usr/local/aardvark stripped of /usr/local is aardvark, stripped of the
non-matching /repos/local/ it is unchanged, also when applied twice. -/
theorem strip_prefix_if_needed_spec :
    (∀ (p : RustPath) (pre : String), ¬ (pathComponents pre <+: pathComponents p.osstr) →
        strip_prefix_if_needed p pre = p)
    ∧ (∀ (p : RustPath) (pre : String), pathComponents pre <+: pathComponents p.osstr →
        pathComponents pre ++ pathComponents (strip_prefix_if_needed p pre).osstr
          = pathComponents p.osstr)
    ∧ (strip_prefix_if_needed usrLocalPath "/usr/local").osstr = "aardvark"
    ∧ strip_prefix_if_needed usrLocalPath "/repos/local/" = usrLocalPath
    ∧ strip_prefix_if_needed (strip_prefix_if_needed usrLocalPath "/repos/local/") "/repos/local/"
        = usrLocalPath := by
  refine ⟨?_, ?_, by decide, by decide, by decide⟩
  · intro p pre h
    simp [strip_prefix_if_needed, stripPrefixCore, h]
  · intro p pre h
    have hres : (strip_prefix_if_needed p pre).osstr =
        componentsToPath ((pathComponents p.osstr).drop (pathComponents pre).length) := by
      simp [strip_prefix_if_needed, stripPrefixCore, h]
    rw [hres, roundtrip_drop]
    have htake := List.prefix_iff_eq_take.mp h
    calc pathComponents pre ++ (pathComponents p.osstr).drop (pathComponents pre).length
        = (pathComponents p.osstr).take (pathComponents pre).length
            ++ (pathComponents p.osstr).drop (pathComponents pre).length := by
          rw [← htake]
      _ = pathComponents p.osstr := List.take_append_drop _ _

/-- C7 witness: both branches fire at concrete inputs, a non-matching
and a matching one. -/
theorem strip_prefix_if_needed_spec_witness :
    strip_prefix_if_needed usrLocalPath "/repos/local/" = usrLocalPath
      ∧ pathComponents "/usr/local"
          ++ pathComponents (strip_prefix_if_needed usrLocalPath "/usr/local").osstr
          = pathComponents usrLocalPath.osstr :=
  ⟨strip_prefix_if_needed_spec.1 usrLocalPath "/repos/local/" (by decide),
    strip_prefix_if_needed_spec.2.1 usrLocalPath "/usr/local" (by decide)⟩

end Pathext
